import Mathlib

/-!
Verification of the Reusable-Atomic-Workflows documentation generator.

The TypeScript sources are embedded shallowly: JS strings become `List Char`
(UTF-16 code-unit indices and code-point indices agree on every cut this code
performs, since all markers and search patterns are ASCII), JS string methods
become explicit list functions mirroring ECMAScript semantics, and the two
effectful entry points (`scanWorkflows`, `generateDocumentation`) become pure
functions over explicit file-system snapshots.  Sources embedded:

* `src/lib/workflow-scanner.ts` - `getWorkflowDescription`, `scanWorkflows`;
* `src/lib/doc-generator.ts` (current, marker-based) - `wrapText`,
  `formatStackedWorkflowDetails`, `CATEGORY_MAPPINGS`, `getCategoryByFilename`,
  `categorizeWorkflow`, `generateFolderStructure`, `generateDocumentation`;
* the historical heading-based `doc-generator.ts` - its name-keyword
  `categorizeWorkflow`, embedded as `categorizeWorkflowByName`.
-/

/-! ## Generic string machinery (ECMAScript semantics over `List Char`) -/

/-- First index at which `pat` occurs in `l` as a contiguous substring
(`String.prototype.indexOf` without the `-1` encoding; `none` = not found).
For the empty pattern it returns `some 0`, as `indexOf` does. -/
def findIdxOfStr (pat : List Char) : List Char → Option Nat
  | [] => if pat = [] then some 0 else none
  | c :: rest =>
    if pat.isPrefixOf (c :: rest) then some 0
    else (findIdxOfStr pat rest).map (· + 1)

/-- `String.prototype.indexOf`: `-1` when the pattern does not occur. -/
def jsIndexOf (l pat : List Char) : Int :=
  match findIdxOfStr pat l with
  | none => -1
  | some i => (i : Int)

/-- `s.substring(0, e)` with a possibly negative `e` (clamped to `0`). -/
def jsSubstringTo (l : List Char) (e : Int) : List Char := l.take e.toNat

/-- `s.substring(s)` with a possibly negative or overflowing start (clamped). -/
def jsSubstringFrom (l : List Char) (s : Int) : List Char := l.drop s.toNat

/-- Index of the last occurrence of the character `a` in `l`
(`String.prototype.lastIndexOf` restricted to single-character needles). -/
def lastIdxOfChar (a : Char) : List Char → Option Nat
  | [] => none
  | c :: rest =>
    match lastIdxOfChar a rest with
    | some i => some (i + 1)
    | none => if c = a then some 0 else none

/-- `text.lastIndexOf(' ', j)`: last index `≤ j` holding a space.  JS clamps a
negative `fromIndex` to `0`, which coincides with `Nat` truncation at `0`. -/
def lastIndexOfSpaceLe (l : List Char) (j : Nat) : Option Nat :=
  lastIdxOfChar ' ' (l.take (j + 1))

/-- The literal break marker inserted by `wrapText`. -/
def brMark : List Char := "<br>".toList

/-- Fueled core of `wrapText` (the source recursion consumes at least one
character per step whenever `maxLength > 0`, so fuel `text.length` suffices). -/
def wrapTextF : Nat → List Char → Nat → List Char
  | 0, text, _ => text
  | fuel + 1, text, maxLength =>
    if text.length ≤ maxLength then text
    else
      match lastIndexOfSpaceLe text (maxLength - 1) with
      | none =>
          text.take maxLength ++ brMark ++ wrapTextF fuel (text.drop maxLength) maxLength
      | some i =>
          text.take i ++ brMark ++ wrapTextF fuel (text.drop (i + 1)) maxLength

/-- `wrapText` from `doc-generator.ts`: wrap to `maxLength`, breaking at the
last space before the limit, hard-splitting space-free runs. -/
def wrapText (text : List Char) (maxLength : Nat) : List Char :=
  wrapTextF text.length text maxLength

/-- Segment list produced by the `wrapText` recursion (proof companion:
`wrapText` is these segments joined by `brMark`). -/
def wrapSegsF : Nat → List Char → Nat → List (List Char)
  | 0, text, _ => [text]
  | fuel + 1, text, maxLength =>
    if text.length ≤ maxLength then [text]
    else
      match lastIndexOfSpaceLe text (maxLength - 1) with
      | none => text.take maxLength :: wrapSegsF fuel (text.drop maxLength) maxLength
      | some i => text.take i :: wrapSegsF fuel (text.drop (i + 1)) maxLength

/-- Plain hard chunking into pieces of exactly `n` characters (shorter or
equal final piece): what `wrapText` degenerates to on space-free text. -/
def chunksF : Nat → List Char → Nat → List (List Char)
  | 0, text, _ => [text]
  | fuel + 1, text, n =>
    if text.length ≤ n then [text] else text.take n :: chunksF fuel (text.drop n) n

/-- Join segments with the break marker (`Array.prototype.join('<br>')`). -/
def intercalateBr : List (List Char) → List Char
  | [] => []
  | [s] => s
  | s :: rest => s ++ brMark ++ intercalateBr rest

/-- Fueled splitting on the 4-character break marker (leftmost-first). -/
def splitOnBrF : Nat → List Char → List (List Char)
  | 0, l => [l]
  | fuel + 1, l =>
    match findIdxOfStr brMark l with
    | none => [l]
    | some i => l.take i :: splitOnBrF fuel (l.drop (i + brMark.length))

/-- Split a string on every occurrence of the break marker
(`String.prototype.split('<br>')`). -/
def splitOnBr (l : List Char) : List (List Char) := splitOnBrF l.length l

/-- `Rejoins segs t`: the original text `t` is recovered from the segment list
by replacing each inter-segment gap with either nothing (a hard split) or a
single space (a split at a space boundary). -/
inductive Rejoins : List (List Char) → List Char → Prop
  | single (s : List Char) : Rejoins [s] s
  | hard (s : List Char) {segs : List (List Char)} {t : List Char} :
      Rejoins segs t → Rejoins (s :: segs) (s ++ t)
  | soft (s : List Char) {segs : List (List Char)} {t : List Char} :
      Rejoins segs t → Rejoins (s :: segs) (s ++ ' ' :: t)

/-- A pattern is border-free when no proper nonempty prefix of it is also a
suffix; occurrences of a border-free pattern cannot straddle a junction with
an explicit copy of the pattern. -/
def borderFree (pat : List Char) : Prop :=
  ∀ k, k < pat.length → 0 < k → pat.take k ≠ pat.drop (pat.length - k)

/-! ## workflow-scanner.ts -/

/-- The whitespace class trimmed by `String.prototype.trim` (ASCII part plus
NBSP and BOM; the workflow files at hand contain only the ASCII ones). -/
def isJsWhitespace (c : Char) : Bool :=
  c = ' ' || c = '\t' || c = '\n' || c = '\r' || c = '\x0b' || c = '\x0c' ||
    c = ' ' || c = '﻿'

/-- `String.prototype.trim`. -/
def jsTrim (l : List Char) : List Char :=
  ((l.dropWhile isJsWhitespace).reverse.dropWhile isJsWhitespace).reverse

/-- `raw.split('\n')` (keeps empty fields; `"".split('\n') = [""]`). -/
def splitOnNl : List Char → List (List Char)
  | [] => [[]]
  | c :: rest =>
    if c = '\n' then [] :: splitOnNl rest
    else
      match splitOnNl rest with
      | l :: ls => (c :: l) :: ls
      | [] => [[c]]

/-- The sentinel description. -/
def noDescription : List Char := "No description provided.".toList

/-- `trimmed.startsWith('#')`. -/
def hashHead : List Char → Bool
  | '#' :: _ => true
  | _ => false

/-- The line scan inside `getWorkflowDescription`: stop at the first non-blank
non-comment line; return the first non-empty trimmed comment body seen. -/
def descLoop : List (List Char) → List Char
  | [] => noDescription
  | line :: rest =>
    let trimmed := jsTrim line
    if trimmed ≠ [] ∧ hashHead trimmed = false then noDescription
    else if hashHead trimmed then
      let comment := jsTrim (trimmed.drop 1)
      if comment ≠ [] then comment else descLoop rest
    else descLoop rest

/-- `getWorkflowDescription` from `workflow-scanner.ts`. -/
def getWorkflowDescription (rawWorkflow : List Char) : List Char :=
  descLoop (splitOnNl rawWorkflow)

/-- Trimmed line is blank or a comment (the scan continues past such lines). -/
def isBlankOrComment (line : List Char) : Bool :=
  (jsTrim line).isEmpty || hashHead (jsTrim line)

/-- Stripped body of a comment line. -/
def commentBody (line : List Char) : List Char := jsTrim ((jsTrim line).drop 1)

/-- Comment line with non-empty stripped body. -/
def commentWithBody (line : List Char) : Bool :=
  hashHead (jsTrim line) && !(commentBody line).isEmpty

/-- The spec's description-derivation rule, stated declaratively for the
refinement proof: among the lines before the first non-blank non-comment line,
the first comment line with non-empty stripped body provides the description;
otherwise the sentinel is used. -/
def specDescriptionRule (raw : List Char) : List Char :=
  match ((splitOnNl raw).takeWhile isBlankOrComment).filter commentWithBody with
  | [] => noDescription
  | line :: _ => commentBody line

/-- Last path component for a POSIX path without trailing separators
(`path.basename(p)` restricted to the inputs the scanner feeds it). -/
def stripDir (p : List Char) : List Char :=
  (p.reverse.takeWhile (fun c => c ≠ '/')).reverse

/-- `path.extname(b)`-and-strip combined: `path.basename(p, path.extname(p))`.
Node treats a leading dot of the last component as part of the name, not as
an extension, so a lone `.yml` keeps its dot. -/
def basenameNoExt (p : List Char) : List Char :=
  let b := stripDir p
  match lastIdxOfChar '.' b with
  | none => b
  | some 0 => b
  | some i => b.take i

/-- One step of `name.replace(/Reusable[ .]/i, '')`: does the 9-character
case-insensitive pattern `Reusable` + (space or dot) match at index `i`? -/
def reusableTokenAt (l : List Char) (i : Nat) : Bool :=
  ((l.drop i).take 8).map Char.toLower = "reusable".toList &&
    match l.drop (i + 8) with
    | c :: _ => c = ' ' || c = '.'
    | [] => false

/-- `name.replace(/Reusable[ .]/i, '')`: remove the first (not necessarily
leading) case-insensitive occurrence of `Reusable` followed by a space or dot. -/
def replaceReusable (l : List Char) : List Char :=
  match (List.range l.length).find? (fun i => reusableTokenAt l i) with
  | none => l
  | some i => l.take i ++ l.drop (i + 9)

/-- The `workflow_call` section of a parsed workflow document; the renderer
only ever reads the key lists of `inputs`/`secrets`/`outputs` (via
`Object.keys`), so the parameter maps are embedded as their ordered key lists. -/
structure CallableTrigger where
  inputs : Option (List (List Char))
  secrets : Option (List (List Char))
  outputs : Option (List (List Char))
deriving DecidableEq

/-- The parsed YAML document as the scanner consumes it: the optional `name`
field and the optional `on:` section, whose payload records whether a
`workflow_call` key is present and what it declares. -/
structure ParsedDoc where
  name : Option (List Char)
  onSection : Option (Option CallableTrigger)
deriving DecidableEq

/-- One enumerated file: its path, its raw text, and the outcome of
`parse(content)` (`none` = the YAML parser threw). -/
structure FileEntry where
  path : List Char
  raw : List Char
  parsed : Option ParsedDoc
deriving DecidableEq

/-- The `Workflow` record of `workflow-scanner.ts`. -/
structure Workflow where
  name : List Char
  description : List Char
  filePath : List Char
  fileName : List Char
  inputs : Option (List (List Char))
  secrets : Option (List (List Char))
  outputs : Option (List (List Char))
  isReusable : Bool
deriving DecidableEq

/-- The body of the scanner's per-file `try` block: `none` when it throws
(YAML parse failure, or the `workflow.name.replace` call on a document with no
`name` field raising a `TypeError`), `some record` otherwise. -/
def processFile (f : FileEntry) : Option Workflow :=
  match f.parsed with
  | none => none
  | some doc =>
    match doc.name with
    | none => none
    | some title =>
      let stripped := replaceReusable title
      some
        { name := if stripped ≠ [] then stripped else basenameNoExt f.path
          description := getWorkflowDescription f.raw
          filePath := f.path
          fileName := stripDir f.path
          inputs := (doc.onSection.bind id).bind CallableTrigger.inputs
          secrets := (doc.onSection.bind id).bind CallableTrigger.secrets
          outputs := (doc.onSection.bind id).bind CallableTrigger.outputs
          isReusable :=
            match doc.onSection with
            | some (some _) => true
            | _ => false }

/-- `scanWorkflows` over an explicit enumeration: each file is processed in
order; a throwing file contributes a console warning (counted) instead of a
record, and the batch continues. -/
def scanWorkflows : List FileEntry → List Workflow × Nat
  | [] => ([], 0)
  | f :: rest =>
    let r := scanWorkflows rest
    match processFile f with
    | some w => (w :: r.1, r.2)
    | none => (r.1, r.2 + 1)

/-! ## doc-generator.ts (current, marker-based version) -/

/-- `(findIdxOfStr pat l).isSome`, i.e. `String.prototype.includes`. -/
def containsStr (pat l : List Char) : Bool := (findIdxOfStr pat l).isSome

/-- Remove the first occurrence of `pat` from `l`
(`String.prototype.replace` with a plain-string pattern and empty image). -/
def replaceFirstStr (pat l : List Char) : List Char :=
  match findIdxOfStr pat l with
  | none => l
  | some i => l.take i ++ l.drop (i + pat.length)

/-- `formatStackedWorkflowDetails`: backtick-quoted key names joined by the
break marker; `*None*` for an absent or empty map. -/
def formatStackedWorkflowDetails (columns : Option (List (List Char))) : List Char :=
  match columns with
  | none => "*None*".toList
  | some keys =>
    if keys = [] then "*None*".toList
    else intercalateBr (keys.map (fun key => "`".toList ++ key ++ "`".toList))

/-- `CATEGORY_MAPPINGS`: ordered filename-prefix rules, each as
(prefix list, category, icon).  The Monitoring icon is the replacement
character that literally appears in the source file. -/
def CATEGORY_MAPPINGS : List (List (List Char) × List Char × List Char) :=
  [ (["_".toList], "Internal".toList, "⚙️".toList),
    (["test-".toList], "Testing".toList, "🧪".toList),
    (["quality-".toList], "Code Quality".toList, "🔧".toList),
    (["deploy-".toList, "build-".toList, "publish-".toList, "release-".toList],
      "Deployment".toList, "🚀".toList),
    (["security-".toList, "scan-".toList, "audit-".toList],
      "Security".toList, "🔒".toList),
    (["util-".toList, "setup-".toList, "tool-".toList, "maintenance-".toList],
      "Utilities".toList, "🛠️".toList),
    (["doc-".toList, "docs-".toList, "generate-".toList],
      "Documentation".toList, "📚".toList),
    (["notify-".toList, "alert-".toList], "Notifications".toList, "🔔".toList),
    (["monitor-".toList, "check-".toList, "health-".toList],
      "Monitoring".toList, "�".toList) ]

/-- The default category with its icon. -/
def miscCategory : List Char × List Char := ("Miscellaneous".toList, "🔍".toList)

/-- The `for`-loop of `getCategoryByFilename`. -/
def categoryLoop (filename : List Char) :
    List (List (List Char) × List Char × List Char) → List Char × List Char
  | [] => miscCategory
  | m :: rest =>
    if m.1.any (fun p => p.isPrefixOf filename) then (m.2.1, m.2.2)
    else categoryLoop filename rest

/-- `getCategoryByFilename`: first prefix rule that matches wins, else the
default category. -/
def getCategoryByFilename (filename : List Char) : List Char × List Char :=
  categoryLoop filename CATEGORY_MAPPINGS

/-- `filePath.split(/[/\\]/)`. -/
def splitOnSlashes : List Char → List (List Char)
  | [] => [[]]
  | c :: rest =>
    if c = '/' ∨ c = '\\' then [] :: splitOnSlashes rest
    else
      match splitOnSlashes rest with
      | l :: ls => (c :: l) :: ls
      | [] => [[c]]

/-- The filename key `categorizeWorkflow` classifies on:
`filePath.split(/[/\\]/).pop()?.replace('.yml', '').replace('.yaml', '') || ''`
(note: `replace` removes the first occurrence, wherever it is). -/
def filenameKeyOf (filePath : List Char) : List Char :=
  replaceFirstStr ".yaml".toList
    (replaceFirstStr ".yml".toList (((splitOnSlashes filePath).getLast?).getD []))

/-- `categorizeWorkflow` from the current `doc-generator.ts`. -/
def categorizeWorkflow (w : Workflow) : List Char × List Char :=
  getCategoryByFilename (filenameKeyOf w.filePath)

/-! ## Historical doc-generator (heading-based version): name-keyword rules -/

/-- The keyword table of the historical `categorizeWorkflow` (substring match
against the lower-cased display name, in this priority order). -/
def NAME_KEYWORD_RULES : List (List (List Char) × List Char) :=
  [ (["test".toList, "unit".toList, "integration".toList, "e2e".toList,
      "spec".toList], "Testing".toList),
    (["format".toList, "lint".toList, "type".toList, "quality".toList,
      "prettier".toList, "eslint".toList], "Code Quality".toList),
    (["deploy".toList, "build".toList, "publish".toList, "release".toList,
      "dist".toList], "Deployment".toList),
    (["security".toList, "scan".toList, "audit".toList, "vulnerability".toList,
      "cve".toList], "Security".toList),
    (["util".toList, "helper".toList, "setup".toList, "config".toList,
      "tool".toList, "assign".toList, "label".toList, "stale".toList,
      "cleanup".toList, "maintenance".toList], "Utilities".toList),
    (["doc".toList, "readme".toList, "changelog".toList, "generate".toList,
      "wiki".toList], "Documentation".toList),
    (["notify".toList, "slack".toList, "discord".toList, "email".toList,
      "webhook".toList, "alert".toList], "Notifications".toList),
    (["monitor".toList, "health".toList, "check".toList, "status".toList,
      "ping".toList, "uptime".toList], "Monitoring".toList) ]

/-- The keyword `if`-chain of the historical `categorizeWorkflow`. -/
def keywordLoop (name : List Char) : List (List (List Char) × List Char) → List Char
  | [] => "Miscellaneous".toList
  | (kws, cat) :: rest =>
    if kws.any (fun k => containsStr k name) then cat else keywordLoop name rest

/-- The historical `categorizeWorkflow`: keyword-substring matching against the
lower-cased display name only. -/
def categorizeWorkflowByName (w : Workflow) : List Char :=
  keywordLoop (w.name.map Char.toLower) NAME_KEYWORD_RULES

/-- The two-stage classifier described by the claim (filename-prefix rules
first, then keyword fallback on the lower-cased display name, then the
default): stated from the claim's words for comparison; no version of the
source composes the two mechanisms this way. -/
def claimTwoStageClassify (w : Workflow) : List Char :=
  match CATEGORY_MAPPINGS.find?
      (fun m => m.1.any (fun p => p.isPrefixOf (filenameKeyOf w.filePath))) with
  | some m => m.2.1
  | none => keywordLoop (w.name.map Char.toLower) NAME_KEYWORD_RULES

/-! ## Folder-structure rendering -/

/-- A file visible to `generateFolderStructure`: its glob path and the result
of `readFile` (`none` = the read threw). -/
structure FSFile where
  path : List Char
  content : Option (List Char)
deriving DecidableEq

/-- `path.basename` including Node's handling of trailing separators (the
action-directory globs end in `/`). -/
def nodeBasename (p : List Char) : List Char :=
  ((p.reverse.dropWhile (fun c => c = '/')).takeWhile (fun c => c ≠ '/')).reverse

/-- Code-point-wise lexicographic order, standing in for
`String.prototype.localeCompare` (the two agree on the all-lowercase ASCII
file names this repository uses). -/
def lexLe : List Char → List Char → Bool
  | [], _ => true
  | _ :: _, [] => false
  | a :: as, b :: bs => if a = b then lexLe as bs else decide (a < b)

/-- Stable insertion of a (file, fileName) pair into a name-sorted list. -/
def insertByName (x : FSFile × List Char) :
    List (FSFile × List Char) → List (FSFile × List Char)
  | [] => [x]
  | y :: ys => if lexLe x.2 y.2 then x :: y :: ys else y :: insertByName x ys

/-- Stable sort by file name, modelling `Array.prototype.sort` with the
`localeCompare` comparator. -/
def sortByName (l : List (FSFile × List Char)) : List (FSFile × List Char) :=
  l.foldr insertByName []

/-- `(reusable)` / `(internal)` annotation: a raw-text containment check for
`workflow_call`; empty when the read threw. -/
def fileTypeAnnotation (f : FSFile) : List Char :=
  match f.content with
  | none => []
  | some content =>
    if containsStr "workflow_call".toList content then " (reusable)".toList
    else " (internal)".toList

/-- The indexed workflow-file loop of `generateFolderStructure`: category
header comments on category change, blank connector between groups, terminal
connector on the overall last item. -/
def folderLinesGo (total : Nat) (hasActions : Bool) :
    Nat → List Char → List (FSFile × List Char) → List Char
  | _, _, [] => []
  | i, lastCategory, (f, fileName) :: rest =>
    let ci := getCategoryByFilename fileName
    let catPart : List Char :=
      if ci.1 ≠ lastCategory then
        (if 0 < i then "│   │\n".toList else []) ++
          "│   ".toList ++
          (if i < total - 1 ∨ hasActions then "├──".toList else "└──".toList) ++
          " # ".toList ++ ci.2 ++ " ".toList ++ ci.1 ++ "\n".toList
      else []
    let isLastFile : Bool := i = total - 1 && !hasActions
    let fileLine : List Char :=
      "│   ".toList ++ (if isLastFile then "└──".toList else "├──".toList) ++
        " ".toList ++ fileName ++ fileTypeAnnotation f ++ "\n".toList
    catPart ++ fileLine ++ folderLinesGo total hasActions (i + 1) ci.1 rest

/-- The action-directory loop of `generateFolderStructure`. -/
def actionLinesGo (total : Nat) : Nat → List (List Char) → List Char
  | _, [] => []
  | i, d :: rest =>
    let actionName := nodeBasename d
    let isLast : Bool := i = total - 1
    "    ".toList ++ (if isLast then "└──".toList else "├──".toList) ++
      " ".toList ++ actionName ++ "/\n".toList ++
      "    ".toList ++ (if isLast then " ".toList else "│".toList) ++
      "   └── action.yml\n".toList ++
      actionLinesGo total (i + 1) rest

/-- `generateFolderStructure` over explicit glob results. -/
def generateFolderStructure (workflowFiles : List FSFile)
    (actionDirs : List (List Char)) : List Char :=
  let sorted := sortByName (workflowFiles.map (fun f => (f, stripDir f.path)))
  "```\n.github/\n".toList ++
    (if workflowFiles ≠ [] then
      "├── workflows/          # GitHub Actions Workflows\n".toList ++
        folderLinesGo sorted.length (actionDirs ≠ []) 0 [] sorted
    else []) ++
    (if actionDirs ≠ [] then
      "└── actions/            # Custom Composite Actions\n".toList ++
        actionLinesGo actionDirs.length 0 actionDirs
    else []) ++
    "```".toList

/-! ## Table rendering and splice -/

/-- Insertion-ordered update of the categories map (`Map.get`/`Map.set`):
append the workflow to its category's list, creating the entry at the end on
first sight. -/
def addWorkflowToCategories (cat icon : List Char) (w : Workflow) :
    List (List Char × List Char × List Workflow) →
      List (List Char × List Char × List Workflow)
  | [] => [(cat, icon, [w])]
  | (c, ic, ws) :: rest =>
    if c = cat then (c, ic, ws ++ [w]) :: rest
    else (c, ic, ws) :: addWorkflowToCategories cat icon w rest

/-- Group the reusable workflows by category, preserving first-seen category
order and input order within each category. -/
def buildCategoriesMap (ws : List Workflow) :
    List (List Char × List Char × List Workflow) :=
  ws.foldl (fun acc w =>
    let ci := categorizeWorkflow w
    addWorkflowToCategories ci.1 ci.2 w acc) []

/-- One markdown table row for a workflow. -/
def renderWorkflowRow (w : Workflow) : List Char :=
  let workflowName := wrapText w.name 25
  let description :=
    if w.description ≠ [] ∧ w.description ≠ noDescription then
      wrapText w.description 50
    else "*No description provided*".toList
  let inputs := formatStackedWorkflowDetails w.inputs
  let outputs := formatStackedWorkflowDetails w.outputs
  let secrets := formatStackedWorkflowDetails w.secrets
  let workflowLink :=
    "[".toList ++ workflowName ++ "](./".toList ++
      (w.filePath.map (fun c => if c = '\\' then '/' else c)) ++ ")".toList
  "| **".toList ++ workflowLink ++ "** | ".toList ++ description ++
    " | ".toList ++ inputs ++ " | ".toList ++ outputs ++ " | ".toList ++
    secrets ++ " |\n".toList

/-- One category block: heading, table header, rows, trailing blank line. -/
def renderCategoryBlock (cat icon : List Char) (ws : List Workflow) : List Char :=
  "### ".toList ++ icon ++ " ".toList ++ cat ++ "\n\n".toList ++
    "| Workflow Name | Description | Inputs | Outputs | Secrets |\n".toList ++
    "|:-------------|:------------|:-------|:--------|:--------|\n".toList ++
    (ws.map renderWorkflowRow).flatten ++ "\n".toList

/-- The auto-generation notice placed at the top of the workflows section. -/
def workflowsNotice : List Char :=
  ("<!-- AUTO-GENERATED CONTENT - DO NOT EDIT MANUALLY -->\n" ++
   "<!-- This section is automatically updated by the documentation generator -->\n\n" ++
   "> ⚡ **Auto-Generated** ⚡\n" ++
   "> \n" ++
   "> This section is automatically updated whenever workflows are added, modified, or removed.\n" ++
   "> The documentation reflects the current state of all reusable workflows in this repository.\n\n").toList

/-- The `workflowsSection` string built by `generateDocumentation` (the
empty-map branch overwrites the notice with a plain message, as the source
does). -/
def workflowsSectionOf (workflows : List Workflow) : List Char :=
  let reusableWorkflows := workflows.filter (fun w => w.isReusable)
  let categoriesMap := buildCategoriesMap reusableWorkflows
  if categoriesMap = [] then "No reusable workflows found.\n".toList
  else
    workflowsNotice ++
      (categoriesMap.map (fun e => renderCategoryBlock e.1 e.2.1 e.2.2)).flatten

/-- The auto-generation notice placed at the top of the folder section. -/
def folderNotice : List Char :=
  ("<!-- AUTO-GENERATED CONTENT - DO NOT EDIT MANUALLY -->\n" ++
   "<!-- This section is automatically updated by the documentation generator -->\n\n" ++
   "> ⚡ **Auto-Generated** ⚡\n" ++
   "> \n" ++
   "> This folder structure is automatically scanned and updated to reflect the current repository layout.\n" ++
   "> It shows all workflows and actions with their types (reusable/internal).\n\n").toList

/-- The `folderStructureSection` string built by `generateDocumentation`. -/
def folderStructureSectionOf (workflowFiles : List FSFile)
    (actionDirs : List (List Char)) : List Char :=
  folderNotice ++ generateFolderStructure workflowFiles actionDirs

/-- The delimiter comments searched for by the splice step. -/
def beginWorkflowsMarker : List Char :=
  "<!-- BEGIN: Available Workflows Section -->".toList

/-- End delimiter of the capability-table region. -/
def endWorkflowsMarker : List Char :=
  "<!-- END: Available Workflows Section -->".toList

/-- Begin delimiter of the folder-tree region. -/
def beginFolderMarker : List Char :=
  "<!-- BEGIN: Workflows Folder Structure Section -->".toList

/-- End delimiter of the folder-tree region. -/
def endFolderMarker : List Char :=
  "<!-- END: Workflows Folder Structure Section -->".toList

/-- Everything `generateDocumentation` emits between the start of the begin
marker and the final end marker (exclusive). -/
def splicedCore (workflowsSection folderStructureSection : List Char) : List Char :=
  beginWorkflowsMarker ++ "\n".toList ++
    "## 📦 Available Workflows\n\n".toList ++
    workflowsSection ++
    endWorkflowsMarker ++ "\n\n".toList ++
    beginFolderMarker ++ "\n".toList ++
    "## 🏗️ Workflows Folder Structure\n\n".toList ++
    folderStructureSection ++ "\n".toList

/-- The splice step at the end of `generateDocumentation`: locate the two
delimiters by `indexOf` (`-1` when absent, exactly as in the source — there is
no absence check) and rebuild the document. -/
def spliceReadme (existingContent workflowsSection folderStructureSection : List Char) :
    List Char :=
  let availableWorkflowsStart := jsIndexOf existingContent beginWorkflowsMarker
  let folderStructureEnd := jsIndexOf existingContent endFolderMarker
  jsSubstringTo existingContent availableWorkflowsStart ++
    splicedCore workflowsSection folderStructureSection ++
    endFolderMarker ++ "\n\n".toList ++
    jsSubstringFrom existingContent (folderStructureEnd + (endFolderMarker.length : Int))

/-- `generateDocumentation` as a document transformation: the new README text
as a function of the scanned workflows, the existing README text, and the two
glob enumerations used by `generateFolderStructure`. -/
def generateDocumentation (workflows : List Workflow) (existingContent : List Char)
    (workflowFiles : List FSFile) (actionDirs : List (List Char)) : List Char :=
  spliceReadme existingContent (workflowsSectionOf workflows)
    (folderStructureSectionOf workflowFiles actionDirs)

/-! ## Concrete inputs used by the counterexamples and witnesses -/

/-- A README in which the two marker pairs are separated by other content. -/
def docBetween : List Char :=
  "PRE ".toList ++ beginWorkflowsMarker ++ " t ".toList ++ endWorkflowsMarker ++
    " MIDDLE ".toList ++ beginFolderMarker ++ " u ".toList ++ endFolderMarker ++
    " POST".toList

/-- A README lacking the capability-table begin marker. -/
def docNoBegin : List Char :=
  "Hello\n".toList ++ endFolderMarker ++ "\nWorld".toList

/-- A small well-formed README (both markers present). -/
def docWellFormed : List Char :=
  "# T\n\n".toList ++ beginWorkflowsMarker ++ "\nold\n".toList ++
    endFolderMarker ++ "\ntail\n".toList

/-- A workflow file that parses but declares no `name` field. -/
def entryNoTitle : FileEntry :=
  { path := "deploy-prod.yml".toList
    raw := "# Deploys production\non: push\n".toList
    parsed := some { name := none, onSection := some none } }

/-- A workflow file whose declared title strips to the empty string. -/
def entryBareTitle : FileEntry :=
  { path := "deploy-prod.yml".toList
    raw := "# Deploys production\n".toList
    parsed := some { name := some "Reusable ".toList, onSection := some none } }

/-- A small valid workflow file (has a title, callable). -/
def mkValidEntry (base title : List Char) : FileEntry :=
  { path := base ++ ".yml".toList
    raw := ("# d\n").toList
    parsed := some
      { name := some title
        onSection := some (some { inputs := some ["x".toList], secrets := none, outputs := none }) } }

/-- Five parseable files and one file with invalid syntax. -/
def sixFiles : List FileEntry :=
  [ mkValidEntry "a".toList "A".toList,
    mkValidEntry "b".toList "B".toList,
    mkValidEntry "c".toList "C".toList,
    { path := "broken.yml".toList, raw := "] oops [".toList, parsed := none },
    mkValidEntry "d".toList "D".toList,
    mkValidEntry "e".toList "E".toList ]

/-- The description-extraction example: three comment lines with bodies
`A`, (empty), `B`, then non-comment content. -/
def descExampleRaw : List Char := "# A\n#\n# B\nname: test\n".toList

/-- A workflow matched by no filename-prefix rule whose display name contains
the keyword `test`. -/
def keywordOnlyWorkflow : Workflow :=
  { name := "unit test".toList
    description := "d".toList
    filePath := "mytest.yml".toList
    fileName := "mytest.yml".toList
    inputs := none
    secrets := none
    outputs := none
    isReusable := true }

/-! ## Remaining definitions used by theorem statements -/

/-- `chunksF` with enough fuel: hard chunking of a whole string. -/
def chunksOf (t : List Char) (n : Nat) : List (List Char) := chunksF t.length t n

/-- `String.prototype.endsWith`. -/
def endsWithStr (pat l : List Char) : Bool := pat.reverse.isPrefixOf l.reverse

/-- The path shape produced by the `*.{yml,yaml}` workflow glob. -/
def hasYamlExt (p : List Char) : Bool :=
  endsWithStr ".yml".toList p || endsWithStr ".yaml".toList p

/-! ## Lemmas: substring search -/

theorem isPrefixOf_eq_take {p : List Char} :
    ∀ {l : List Char}, p.isPrefixOf l = true ↔ l.take p.length = p := by
  induction p with
  | nil => intro l; simp [List.isPrefixOf]
  | cons a as ih =>
    intro l
    cases l with
    | nil => simp [List.isPrefixOf]
    | cons b bs =>
      simp only [List.isPrefixOf, List.length_cons, List.take_succ_cons,
        Bool.and_eq_true, beq_iff_eq, List.cons.injEq, ih]
      constructor
      · rintro ⟨h1, h2⟩; exact ⟨h1.symm, h2⟩
      · rintro ⟨h1, h2⟩; exact ⟨h1.symm, h2⟩

theorem isPrefixOf_length_le {p l : List Char} (h : p.isPrefixOf l = true) :
    p.length ≤ l.length := by
  rw [isPrefixOf_eq_take] at h
  have := congrArg List.length h
  simp only [List.length_take] at this
  omega

theorem isPrefixOf_append {p x t : List Char} (hx : p.isPrefixOf x = true) :
    p.isPrefixOf (x ++ t) = true := by
  have hlen := isPrefixOf_length_le hx
  rw [isPrefixOf_eq_take] at hx ⊢
  rw [List.take_append_of_le_length hlen, hx]

theorem findIdxOfStr_some_bound {pat l : List Char} {i : Nat}
    (h : findIdxOfStr pat l = some i) :
    i + pat.length ≤ l.length ∧ (l.drop i).take pat.length = pat := by
  induction l generalizing i with
  | nil =>
    simp only [findIdxOfStr] at h
    split at h
    · rename_i hp
      cases h
      simp [hp]
    · cases h
  | cons c rest ih =>
    simp only [findIdxOfStr] at h
    split at h
    · rename_i hp
      cases h
      have hlen := isPrefixOf_length_le hp
      rw [isPrefixOf_eq_take] at hp
      exact ⟨by simpa using hlen, by simpa using hp⟩
    · match hr : findIdxOfStr pat rest with
      | none => rw [hr] at h; cases h
      | some j =>
        rw [hr] at h
        cases h
        obtain ⟨h1, h2⟩ := ih hr
        refine ⟨by simp only [List.length_cons]; omega, by simpa using h2⟩

theorem findIdxOfStr_take_none {pat l : List Char} {i : Nat} (hpat : pat ≠ [])
    (h : findIdxOfStr pat l = some i) : findIdxOfStr pat (l.take i) = none := by
  induction l generalizing i with
  | nil =>
    simp only [findIdxOfStr] at h
    split at h
    · simp_all
    · cases h
  | cons c rest ih =>
    simp only [findIdxOfStr] at h
    split at h
    · cases h
      simpa [findIdxOfStr] using hpat
    · rename_i hnp
      match hr : findIdxOfStr pat rest with
      | none => rw [hr] at h; cases h
      | some j =>
        rw [hr] at h
        cases h
        have htail := ih hr
        have hnp2 : ¬ pat.isPrefixOf (c :: rest.take j) = true := by
          intro hp
          refine hnp ?_
          have hdecomp : c :: rest = (c :: rest.take j) ++ rest.drop j := by
            simp [List.take_append_drop]
          rw [hdecomp]
          exact isPrefixOf_append hp
        simp only [List.take_succ_cons, findIdxOfStr]
        rw [if_neg hnp2, htail]
        rfl

theorem findIdxOfStr_prefix_occurrence {pat l : List Char}
    (h : l.take pat.length = pat) : findIdxOfStr pat l = some 0 := by
  cases l with
  | nil =>
    simp only [List.take_nil] at h
    simp [findIdxOfStr, h.symm]
  | cons c rest =>
    simp only [findIdxOfStr]
    rw [if_pos (isPrefixOf_eq_take.mpr h)]

theorem findIdxOfStr_append_self {pat X Y : List Char} (hbf : borderFree pat)
    (hX : findIdxOfStr pat X = none) :
    findIdxOfStr pat (X ++ pat ++ Y) = some X.length := by
  induction X with
  | nil =>
    simpa using findIdxOfStr_prefix_occurrence (List.take_left pat Y)
  | cons c X' ih =>
    have hX' : findIdxOfStr pat X' = none := by
      simp only [findIdxOfStr] at hX
      split at hX
      · cases hX
      · match hr : findIdxOfStr pat X' with
        | none => rfl
        | some j => rw [hr] at hX; cases hX
    have hnp : ¬ pat.isPrefixOf (c :: X' ++ pat ++ Y) = true := by
      intro hp
      rw [isPrefixOf_eq_take] at hp
      by_cases hlen : pat.length ≤ (c :: X').length
      · -- the occurrence would lie inside `X`, contradicting `hX`
        have hin : (c :: X').take pat.length = pat := by
          rwa [show c :: X' ++ pat ++ Y = (c :: X') ++ (pat ++ Y) by simp,
            List.take_append_of_le_length hlen] at hp
        rw [findIdxOfStr_prefix_occurrence hin] at hX
        cases hX
      · -- the occurrence would straddle the junction: a forbidden border
        push_neg at hlen
        have hdpos : 0 < pat.length - (c :: X').length := by omega
        have hdlt : pat.length - (c :: X').length < pat.length := by
          simp only [List.length_cons]; omega
        set d := pat.length - (c :: X').length with hd
        have e1 : (c :: X' ++ pat ++ Y).take ((c :: X').length + d) = pat := by
          rw [show (c :: X').length + d = pat.length by omega]
          exact hp
        have e2 : (c :: X' ++ pat ++ Y).take ((c :: X').length + d) =
            (c :: X') ++ (pat ++ Y).take d := by
          rw [show c :: X' ++ pat ++ Y = (c :: X') ++ (pat ++ Y) by simp,
            List.take_append]
        have e3 : (pat ++ Y).take d = pat.take d :=
          List.take_append_of_le_length (le_of_lt hdlt)
        have hsplit : pat = (c :: X') ++ pat.take d :=
          calc pat = (c :: X' ++ pat ++ Y).take ((c :: X').length + d) := e1.symm
            _ = (c :: X') ++ (pat ++ Y).take d := e2
            _ = (c :: X') ++ pat.take d := by rw [e3]
        have hborder0 : pat.drop (c :: X').length = pat.take d := by
          conv_lhs => rw [hsplit]
          exact List.drop_left _ _
        have hborder : pat.take d = pat.drop (pat.length - d) := by
          rw [← hborder0]
          congr 1
          omega
        exact hbf d hdlt hdpos hborder
    have hnp' : ¬ pat.isPrefixOf (c :: (X' ++ pat ++ Y)) = true := by
      simpa using hnp
    rw [show c :: X' ++ pat ++ Y = c :: (X' ++ pat ++ Y) by simp]
    simp only [findIdxOfStr]
    rw [if_neg hnp', ih hX']
    simp

theorem borderFree_brMark : borderFree brMark := by
  unfold borderFree; decide

theorem borderFree_beginWorkflowsMarker : borderFree beginWorkflowsMarker := by
  unfold borderFree; decide

theorem borderFree_endFolderMarker : borderFree endFolderMarker := by
  unfold borderFree; decide

/-! ## Lemmas: the splice step -/

theorem spliceReadme_eq {doc : List Char} (W F : List Char) {i j : Nat}
    (h1 : findIdxOfStr beginWorkflowsMarker doc = some i)
    (h2 : findIdxOfStr endFolderMarker doc = some j) :
    spliceReadme doc W F =
      doc.take i ++ splicedCore W F ++ endFolderMarker ++ "\n\n".toList ++
        doc.drop (j + endFolderMarker.length) := by
  have hi : ((i : Int)).toNat = i := Int.toNat_natCast i
  have hj : ((j : Int) + (endFolderMarker.length : Int)).toNat =
      j + endFolderMarker.length := by omega
  simp only [spliceReadme, jsIndexOf, jsSubstringTo, jsSubstringFrom, h1, h2]
  rw [hi, hj]

/-- Claim C1 (amended).  When both delimiters are present, the splice equals
"prefix before the begin marker ++ freshly generated block ++ suffix after the
end marker"; in particular the text before the first capability-table begin
marker is a prefix of the output and the text after the first folder-tree end
marker is a suffix of the output.  (Content lying between the two regions is
part of neither and is replaced by the fixed generated block.) -/
theorem splice_preserves_outside (doc W F : List Char) (i j : Nat)
    (h1 : findIdxOfStr beginWorkflowsMarker doc = some i)
    (h2 : findIdxOfStr endFolderMarker doc = some j) :
    spliceReadme doc W F =
      doc.take i ++ splicedCore W F ++ endFolderMarker ++ "\n\n".toList ++
        doc.drop (j + endFolderMarker.length)
    ∧ doc.take i <+: spliceReadme doc W F
    ∧ doc.drop (j + endFolderMarker.length) <:+ spliceReadme doc W F := by
  have he := spliceReadme_eq W F h1 h2
  refine ⟨he, ?_, ?_⟩
  · exact ⟨splicedCore W F ++ endFolderMarker ++ "\n\n".toList ++
      doc.drop (j + endFolderMarker.length), by rw [he]; simp [List.append_assoc]⟩
  · exact ⟨doc.take i ++ splicedCore W F ++ endFolderMarker ++ "\n\n".toList,
      by rw [he]⟩

set_option maxRecDepth 200000 in
/-- Claim C1 witness: the amended theorem applied to a concrete document in
which the two marker pairs are separated by other content. -/
theorem splice_preserves_outside_witness :
    findIdxOfStr beginWorkflowsMarker docBetween = some 4
    ∧ findIdxOfStr endFolderMarker docBetween = some 152
    ∧ docBetween.take 4 <+: spliceReadme docBetween "w".toList "f".toList
    ∧ docBetween.drop (152 + endFolderMarker.length) <:+
        spliceReadme docBetween "w".toList "f".toList := by
  have h := splice_preserves_outside docBetween "w".toList "f".toList 4 152
    (by decide) (by decide)
  exact ⟨by decide, by decide, h.2.1, h.2.2⟩

set_option maxRecDepth 400000 in
/-- Claim C1 counterexample: `MIDDLE` sits strictly between the end of the
capability-table region and the begin of the folder-tree region of
`docBetween`, yet no occurrence of it survives the splice — content between
the two marker pairs is NOT preserved. -/
theorem splice_drops_between_regions :
    findIdxOfStr "MIDDLE".toList docBetween = some 92
    ∧ findIdxOfStr endWorkflowsMarker docBetween = some 50
    ∧ findIdxOfStr beginFolderMarker docBetween = some 99
    ∧ 50 + endWorkflowsMarker.length ≤ 92
    ∧ 92 + ("MIDDLE".toList).length ≤ 99
    ∧ findIdxOfStr "MIDDLE".toList
        (spliceReadme docBetween "w".toList "f".toList) = none := by
  decide

set_option maxRecDepth 1000000 in
/-- Claim C2 (code bug witness): on a document lacking the capability-table
begin marker the splice step does not fail — `indexOf` yields `-1`,
`substring(0, -1)` silently yields the empty prefix, and a rewritten document
is produced in which everything before the absent marker (here `Hello`) has
been deleted. -/
theorem splice_missing_marker_still_writes :
    findIdxOfStr beginWorkflowsMarker docNoBegin = none
    ∧ generateDocumentation [] docNoBegin [] [] ≠ docNoBegin
    ∧ findIdxOfStr "Hello".toList (generateDocumentation [] docNoBegin [] []) = none := by
  decide

theorem spliceReadme_twice_eq (D W F : List Char) (s e : Nat)
    (h1 : findIdxOfStr beginWorkflowsMarker D = some s)
    (h2 : findIdxOfStr endFolderMarker D = some e)
    (h3 : findIdxOfStr endFolderMarker (D.take s ++ splicedCore W F) = none) :
    spliceReadme D W F =
      D.take s ++ splicedCore W F ++ endFolderMarker ++ "\n\n".toList ++
        D.drop (e + endFolderMarker.length)
    ∧ spliceReadme (spliceReadme D W F) W F =
      D.take s ++ splicedCore W F ++ endFolderMarker ++ "\n\n".toList ++
        "\n\n".toList ++ D.drop (e + endFolderMarker.length) := by
  have he := spliceReadme_eq W F h1 h2
  refine ⟨he, ?_⟩
  set b := D.take s with hb
  set a := D.drop (e + endFolderMarker.length) with ha
  have hXb : findIdxOfStr beginWorkflowsMarker b = none :=
    findIdxOfStr_take_none (by decide) h1
  obtain ⟨u, hu⟩ : ∃ u, splicedCore W F = beginWorkflowsMarker ++ u :=
    ⟨"\n".toList ++ "## 📦 Available Workflows\n\n".toList ++ W ++
      endWorkflowsMarker ++ "\n\n".toList ++ beginFolderMarker ++ "\n".toList ++
      "## 🏗️ Workflows Folder Structure\n\n".toList ++ F ++ "\n".toList,
      by simp [splicedCore, List.append_assoc]⟩
  have hfind1 : findIdxOfStr beginWorkflowsMarker (spliceReadme D W F) =
      some b.length := by
    rw [he, hu]
    rw [show b ++ (beginWorkflowsMarker ++ u) ++ endFolderMarker ++
        "\n\n".toList ++ a =
        b ++ beginWorkflowsMarker ++ (u ++ endFolderMarker ++ "\n\n".toList ++ a) by
      simp [List.append_assoc]]
    exact findIdxOfStr_append_self borderFree_beginWorkflowsMarker hXb
  have hfind2 : findIdxOfStr endFolderMarker (spliceReadme D W F) =
      some (b ++ splicedCore W F).length := by
    rw [he]
    rw [show b ++ splicedCore W F ++ endFolderMarker ++ "\n\n".toList ++ a =
        (b ++ splicedCore W F) ++ endFolderMarker ++ ("\n\n".toList ++ a) by
      simp [List.append_assoc]]
    exact findIdxOfStr_append_self borderFree_endFolderMarker h3
  have he2 := spliceReadme_eq W F hfind1 hfind2
  have htake : (spliceReadme D W F).take b.length = b := by
    rw [he, show b ++ splicedCore W F ++ endFolderMarker ++ "\n\n".toList ++ a =
        b ++ (splicedCore W F ++ endFolderMarker ++ "\n\n".toList ++ a) by
      simp [List.append_assoc]]
    exact List.take_left _ _
  have hdrop : (spliceReadme D W F).drop
      ((b ++ splicedCore W F).length + endFolderMarker.length) =
      "\n\n".toList ++ a := by
    rw [he, show b ++ splicedCore W F ++ endFolderMarker ++ "\n\n".toList ++ a =
        ((b ++ splicedCore W F) ++ endFolderMarker) ++ ("\n\n".toList ++ a) by
      simp [List.append_assoc],
      show (b ++ splicedCore W F).length + endFolderMarker.length =
        ((b ++ splicedCore W F) ++ endFolderMarker).length from
        (List.length_append _ _).symm]
    exact List.drop_left _ _
  rw [he2, htake, hdrop]
  simp [List.append_assoc]

/-- Claim C9 (amended).  The generator is NOT idempotent: with the input set
unchanged (so the two generated sections `W`, `F` are unchanged), a second
splice reproduces the first run's document except that two extra newline
characters are inserted after the folder-structure end marker — the emitted
trailing `"\n\n"` of the first run is part of the preserved suffix, and the
second run emits its own `"\n\n"` in front of it.  Hypotheses: the two
delimiters occur in the original document, and the end delimiter does not
occur spuriously before the emitted one in the once-spliced document. -/
theorem splice_second_run (D W F : List Char) (s e : Nat)
    (h1 : findIdxOfStr beginWorkflowsMarker D = some s)
    (h2 : findIdxOfStr endFolderMarker D = some e)
    (h3 : findIdxOfStr endFolderMarker (D.take s ++ splicedCore W F) = none) :
    spliceReadme D W F =
      D.take s ++ splicedCore W F ++ endFolderMarker ++ "\n\n".toList ++
        D.drop (e + endFolderMarker.length)
    ∧ spliceReadme (spliceReadme D W F) W F =
      D.take s ++ splicedCore W F ++ endFolderMarker ++ "\n\n".toList ++
        "\n\n".toList ++ D.drop (e + endFolderMarker.length) :=
  spliceReadme_twice_eq D W F s e h1 h2 h3

set_option maxRecDepth 400000 in
/-- Claim C9 witness: the amended theorem applied to a concrete well-formed
document. -/
theorem splice_second_run_witness :
    findIdxOfStr beginWorkflowsMarker docWellFormed = some 5
    ∧ findIdxOfStr endFolderMarker docWellFormed = some 53
    ∧ findIdxOfStr endFolderMarker
        (docWellFormed.take 5 ++ splicedCore "w".toList "f".toList) = none
    ∧ spliceReadme (spliceReadme docWellFormed "w".toList "f".toList)
        "w".toList "f".toList =
      docWellFormed.take 5 ++ splicedCore "w".toList "f".toList ++
        endFolderMarker ++ "\n\n".toList ++ "\n\n".toList ++
        docWellFormed.drop (53 + endFolderMarker.length) := by
  refine ⟨by decide, by decide, by decide, ?_⟩
  exact (splice_second_run docWellFormed "w".toList "f".toList 5 53
    (by decide) (by decide) (by decide)).2

set_option maxRecDepth 1000000 in
/-- Claim C9 counterexample: one full generation run on a well-formed README
with an unchanged (empty) input set, then a second run on its own output,
produces a different document — the claimed byte-identity is false (the second
document is two characters longer). -/
theorem generator_not_idempotent :
    generateDocumentation []
        (generateDocumentation [] docWellFormed [] []) [] [] ≠
      generateDocumentation [] docWellFormed [] [] := by
  have h := spliceReadme_twice_eq docWellFormed (workflowsSectionOf [])
    (folderStructureSectionOf [] []) 5 53 (by decide) (by decide) (by decide)
  intro heq
  have hlen := congrArg List.length heq
  have hunfold : ∀ d : List Char, generateDocumentation [] d [] [] =
      spliceReadme d (workflowsSectionOf []) (folderStructureSectionOf [] []) :=
    fun _ => rfl
  rw [hunfold, hunfold, h.2, h.1] at hlen
  have h2 : ("\n\n".toList).length = 2 := by decide
  simp only [List.length_append, h2] at hlen
  omega

/-! ## Lemmas: the Collector -/

theorem descLoop_cons_blank {line : List Char} (rest : List (List Char))
    (h1 : jsTrim line = []) : descLoop (line :: rest) = descLoop rest := by
  have h2 : hashHead (jsTrim line) = false := by rw [h1]; rfl
  simp [descLoop, h1, h2, hashHead]

theorem descLoop_cons_break {line : List Char} (rest : List (List Char))
    (h1 : jsTrim line ≠ []) (h2 : hashHead (jsTrim line) = false) :
    descLoop (line :: rest) = noDescription := by
  simp [descLoop, h1, h2]

theorem descLoop_cons_comment {line : List Char} (rest : List (List Char))
    (h2 : hashHead (jsTrim line) = true) :
    descLoop (line :: rest) =
      if jsTrim ((jsTrim line).drop 1) ≠ [] then jsTrim ((jsTrim line).drop 1)
      else descLoop rest := by
  simp [descLoop, h2]

theorem descLoop_eq_spec (lines : List (List Char)) :
    descLoop lines =
      match (lines.takeWhile isBlankOrComment).filter commentWithBody with
      | [] => noDescription
      | line :: _ => commentBody line := by
  induction lines with
  | nil => rfl
  | cons line rest ih =>
    by_cases hb : jsTrim line = []
    · rw [descLoop_cons_blank rest hb]
      have hboc : isBlankOrComment line = true := by simp [isBlankOrComment, hb]
      have hcwb : commentWithBody line = false := by
        have h2 : hashHead (jsTrim line) = false := by rw [hb]; rfl
        simp [commentWithBody, h2]
      simp only [List.takeWhile_cons, hboc, if_true, List.filter_cons, hcwb,
        Bool.false_eq_true, if_false]
      exact ih
    · by_cases hh : hashHead (jsTrim line) = true
      · have hboc : isBlankOrComment line = true := by simp [isBlankOrComment, hh]
        rw [descLoop_cons_comment rest hh]
        by_cases hc : commentBody line = []
        · have hcwb : commentWithBody line = false := by
            simp [commentWithBody, hc]
          have hc' : ¬ (jsTrim ((jsTrim line).drop 1) ≠ []) := fun hne => hne hc
          rw [if_neg hc']
          simp only [List.takeWhile_cons, hboc, if_true, List.filter_cons, hcwb,
            Bool.false_eq_true, if_false]
          exact ih
        · have hcwb : commentWithBody line = true := by
            simp [commentWithBody, hh, commentBody] at hc ⊢
            simpa [List.isEmpty_iff] using hc
          have hc' : jsTrim ((jsTrim line).drop 1) ≠ [] := hc
          rw [if_pos hc']
          simp only [List.takeWhile_cons, hboc, if_true, List.filter_cons, hcwb]
          rfl
      · rw [descLoop_cons_break rest hb (by simpa using hh)]
        have hboc : isBlankOrComment line = false := by
          simp [isBlankOrComment, hb, hh]
        simp only [List.takeWhile_cons, hboc, Bool.false_eq_true, if_false,
          List.filter_nil]

/-- Claim C4 (confirmed).  Extracted description: the code's line scan agrees
with the spec's declarative rule (first non-empty stripped comment body among
the lines before the first non-blank non-comment line; sentinel otherwise) on
every raw file text, and the `A`/blank/`B` example yields `A`. -/
theorem description_extraction :
    (∀ raw : List Char, getWorkflowDescription raw = specDescriptionRule raw)
    ∧ getWorkflowDescription descExampleRaw = "A".toList := by
  constructor
  · intro raw
    exact descLoop_eq_spec (splitOnNl raw)
  · decide

/-- Claim C5 counterexample: a file that parses successfully but declares no
title is dropped from the result (with one warning) — it does not fall back
to the base name. -/
theorem missing_title_file_dropped :
    entryNoTitle.parsed.isSome = true
    ∧ (entryNoTitle.parsed.bind ParsedDoc.name) = none
    ∧ scanWorkflows [entryNoTitle] = ([], 1) := by
  decide

theorem processFile_eq_some {e : FileEntry} {d : ParsedDoc} {t : List Char}
    (he : e.parsed = some d) (ht : d.name = some t) :
    processFile e = some
      { name := if replaceReusable t ≠ [] then replaceReusable t
          else basenameNoExt e.path
        description := getWorkflowDescription e.raw
        filePath := e.path
        fileName := stripDir e.path
        inputs := (d.onSection.bind id).bind CallableTrigger.inputs
        secrets := (d.onSection.bind id).bind CallableTrigger.secrets
        outputs := (d.onSection.bind id).bind CallableTrigger.outputs
        isReusable :=
          match d.onSection with
          | some (some _) => true
          | _ => false } := by
  obtain ⟨dn, don⟩ := d
  obtain rfl : dn = some t := ht
  unfold processFile
  rw [he]

/-- Claim C5 (amended).  Title-access on a parsed document with no declared
title throws, so the per-file handler drops the file; the base-name fallback
fires only when a title IS declared and strips to the empty string, in which
case the record is kept and its display name is the base name without
extension. -/
theorem title_fallback (e : FileEntry) (d : ParsedDoc) (he : e.parsed = some d) :
    (d.name = none → processFile e = none)
    ∧ (∀ t, d.name = some t → replaceReusable t = [] →
        ∃ w, processFile e = some w ∧ w.name = basenameNoExt e.path) := by
  constructor
  · intro hn
    simp [processFile, he, hn]
  · intro t ht hstrip
    refine ⟨_, processFile_eq_some he ht, ?_⟩
    simp [hstrip]

/-- Claim C5 witness: the amended theorem applied to a file whose declared
title is exactly the stripped token, with base name `deploy-prod`. -/
theorem title_fallback_witness :
    entryBareTitle.parsed =
      some { name := some "Reusable ".toList, onSection := some none }
    ∧ replaceReusable "Reusable ".toList = []
    ∧ basenameNoExt entryBareTitle.path = "deploy-prod".toList
    ∧ ∃ w, processFile entryBareTitle = some w
        ∧ w.name = basenameNoExt entryBareTitle.path := by
  refine ⟨by decide, by decide, by decide, ?_⟩
  exact (title_fallback entryBareTitle
      { name := some "Reusable ".toList, onSection := some none } (by decide)).2
    "Reusable ".toList rfl (by decide)

theorem scanWorkflows_filterMap (files : List FileEntry) :
    (scanWorkflows files).1 = files.filterMap processFile
    ∧ (scanWorkflows files).2 =
      (files.filter (fun f => (processFile f).isNone)).length := by
  induction files with
  | nil => exact ⟨rfl, rfl⟩
  | cons f rest ih =>
    match hp : processFile f with
    | some w =>
      simp only [scanWorkflows, List.filterMap_cons, List.filter_cons, hp,
        Option.isNone_some, Bool.false_eq_true, if_false]
      exact ⟨by rw [ih.1], ih.2⟩
    | none =>
      simp only [scanWorkflows, List.filterMap_cons, List.filter_cons, hp,
        Option.isNone_none, if_true, List.length_cons]
      exact ⟨ih.1, by rw [ih.2]⟩

/-- Claim C8 (confirmed, reading "parsed successfully" as the whole per-file
record extraction succeeding).  The Collector returns exactly the records of
the files whose extraction succeeded, in order, and warns once per failing
file without throwing; in particular five valid files plus one file with
invalid syntax yield a 5-element result and exactly one warning. -/
theorem scan_skips_failures :
    (∀ files : List FileEntry,
      (scanWorkflows files).1 = files.filterMap processFile
      ∧ (scanWorkflows files).2 =
        (files.filter (fun f => (processFile f).isNone)).length)
    ∧ (scanWorkflows sixFiles).1.length = 5
    ∧ (scanWorkflows sixFiles).2 = 1 := by
  exact ⟨scanWorkflows_filterMap, by decide, by decide⟩

theorem stripDir_ne_nil_of_yaml {p : List Char} (h : hasYamlExt p = true) :
    stripDir p ≠ [] := by
  have hrev : ∃ r, p.reverse = 'l' :: r := by
    simp only [hasYamlExt, Bool.or_eq_true, endsWithStr] at h
    rcases h with h | h
    · rw [show (".yml".toList).reverse = ['l', 'm', 'y', '.'] from by decide] at h
      cases hp : p.reverse with
      | nil => rw [hp] at h; exact absurd h (by decide)
      | cons c r =>
        rw [hp] at h
        simp only [List.isPrefixOf, Bool.and_eq_true, beq_iff_eq] at h
        exact ⟨r, by rw [← h.1]⟩
    · rw [show (".yaml".toList).reverse = ['l', 'm', 'a', 'y', '.'] from by decide] at h
      cases hp : p.reverse with
      | nil => rw [hp] at h; exact absurd h (by decide)
      | cons c r =>
        rw [hp] at h
        simp only [List.isPrefixOf, Bool.and_eq_true, beq_iff_eq] at h
        exact ⟨r, by rw [← h.1]⟩
  obtain ⟨r, hr⟩ := hrev
  unfold stripDir
  rw [hr, List.takeWhile_cons]
  simp

theorem basenameNoExt_ne_nil {p : List Char} (hsd : stripDir p ≠ []) :
    basenameNoExt p ≠ [] := by
  unfold basenameNoExt
  rcases hb : stripDir p with _ | ⟨x, xs⟩
  · exact absurd hb hsd
  · rcases h : lastIdxOfChar '.' (x :: xs) with _ | i
    · simp [h]
    · rcases i with _ | i
      · simp [h]
      · simp [h]

/-- Claim C10 (confirmed).  Every record the Collector appends has a non-empty
display name: a surviving record's name is either the non-empty stripped
title, or — when the title strips to the empty string — the base name without
extension, which is non-empty for every file matched by the `*.{yml,yaml}`
glob. -/
theorem workflow_names_nonempty (files : List FileEntry)
    (h : ∀ f ∈ files, hasYamlExt f.path = true) :
    ∀ w ∈ (scanWorkflows files).1, w.name ≠ [] := by
  intro w hw
  rw [(scanWorkflows_filterMap files).1] at hw
  obtain ⟨f, hf, hpf⟩ := List.mem_filterMap.mp hw
  have hyaml := h f hf
  rcases hd : f.parsed with _ | d
  · unfold processFile at hpf
    rw [hd] at hpf
    simp at hpf
  · rcases ht : d.name with _ | t
    · unfold processFile at hpf
      rw [hd] at hpf
      obtain ⟨dn, don⟩ := d
      obtain rfl : dn = none := ht
      simp at hpf
    · rw [processFile_eq_some hd ht] at hpf
      obtain rfl := Option.some.inj hpf
      by_cases hs : replaceReusable t = []
      · simpa [hs] using basenameNoExt_ne_nil (stripDir_ne_nil_of_yaml hyaml)
      · simp [hs]

/-- Claim C10 witness: the theorem applied to a one-file enumeration. -/
theorem workflow_names_nonempty_witness :
    (∀ f ∈ [mkValidEntry "a".toList "A".toList], hasYamlExt f.path = true)
    ∧ ∀ w ∈ (scanWorkflows [mkValidEntry "a".toList "A".toList]).1, w.name ≠ [] :=
  ⟨by decide, workflow_names_nonempty _ (by decide)⟩

/-! ## Lemmas: classification -/

/-- Claim C6 counterexample: for a workflow matched by no filename-prefix rule
whose display name contains the keyword `test`, the code assigns the default
category directly, while the claimed two-stage classifier would fall back to
keyword matching and assign `Testing` — the current classifier has no keyword
fallback. -/
theorem classification_no_keyword_fallback_cex :
    (categorizeWorkflow keywordOnlyWorkflow).1 = "Miscellaneous".toList
    ∧ claimTwoStageClassify keywordOnlyWorkflow = "Testing".toList
    ∧ (categorizeWorkflow keywordOnlyWorkflow).1 ≠
        claimTwoStageClassify keywordOnlyWorkflow := by
  decide

theorem categoryLoop_eq_find (filename : List Char)
    (ms : List (List (List Char) × List Char × List Char)) :
    categoryLoop filename ms =
      (match ms.find? (fun m => m.1.any (fun p => p.isPrefixOf filename)) with
       | some m => (m.2.1, m.2.2)
       | none => miscCategory) := by
  induction ms with
  | nil => rfl
  | cons m rest ih =>
    by_cases hm : m.1.any (fun p => p.isPrefixOf filename) = true
    · simp [categoryLoop, List.find?_cons_of_pos, hm]
    · rw [List.find?_cons_of_neg _ (by simpa using hm)]
      simpa [categoryLoop, hm] using ih

/-- Claim C6 (amended).  Classification consults only the ordered
filename-prefix rules: `categorizeWorkflow` is `getCategoryByFilename` applied
to the path-derived filename key, and `getCategoryByFilename` is
first-matching-rule-or-default — there is no keyword fallback stage (keyword
matching was the sole mechanism of the historical generator, embedded here as
`categorizeWorkflowByName`). -/
theorem classification_prefix_only :
    (∀ w : Workflow,
      categorizeWorkflow w = getCategoryByFilename (filenameKeyOf w.filePath))
    ∧ (∀ filename : List Char, getCategoryByFilename filename =
        (match CATEGORY_MAPPINGS.find?
            (fun m => m.1.any (fun p => p.isPrefixOf filename)) with
         | some m => (m.2.1, m.2.2)
         | none => miscCategory))
    ∧ (∀ w : Workflow, categorizeWorkflowByName w =
        keywordLoop (w.name.map Char.toLower) NAME_KEYWORD_RULES) := by
  exact ⟨fun _ => rfl, fun filename => categoryLoop_eq_find filename _,
    fun _ => rfl⟩

theorem categoryLoop_mem (filename : List Char)
    (ms : List (List (List Char) × List Char × List Char)) :
    categoryLoop filename ms ∈
      ms.map (fun m => (m.2.1, m.2.2)) ++ [miscCategory] := by
  induction ms with
  | nil => simp [categoryLoop]
  | cons m rest ih =>
    by_cases hm : m.1.any (fun p => p.isPrefixOf filename) = true
    · simp [categoryLoop, hm]
    · simp only [categoryLoop, hm, Bool.false_eq_true, if_false,
        List.map_cons, List.cons_append, List.mem_cons]
      exact Or.inr ih

theorem categoryLoop_default (filename : List Char)
    (ms : List (List (List Char) × List Char × List Char))
    (h : ∀ m ∈ ms, ∀ p ∈ m.1, p.isPrefixOf filename = false) :
    categoryLoop filename ms = miscCategory := by
  induction ms with
  | nil => rfl
  | cons m rest ih =>
    have hm : m.1.any (fun p => p.isPrefixOf filename) = false := by
      simp only [List.any_eq_false]
      intro p hp
      simp [h m (List.mem_cons_self m rest) p hp]
    simp only [categoryLoop, hm, Bool.false_eq_true, if_false]
    exact ih (fun m' hm' p hp => h m' (List.mem_cons_of_mem m hm') p hp)

/-- Claim C7 (confirmed).  Classification is total: for every filename,
`getCategoryByFilename` returns exactly one category drawn from the fixed set
(the nine mapped categories plus the default), and a filename matched by no
prefix rule receives the default `Miscellaneous` rather than an error. -/
theorem classification_total (filename : List Char) :
    getCategoryByFilename filename ∈
      CATEGORY_MAPPINGS.map (fun m => (m.2.1, m.2.2)) ++ [miscCategory]
    ∧ ((∀ m ∈ CATEGORY_MAPPINGS, ∀ p ∈ m.1, p.isPrefixOf filename = false) →
        getCategoryByFilename filename = miscCategory) :=
  ⟨categoryLoop_mem filename CATEGORY_MAPPINGS,
    fun h => categoryLoop_default filename CATEGORY_MAPPINGS h⟩

/-- Claim C7 witness: the theorem applied to a filename no rule matches. -/
theorem classification_total_witness :
    (∀ m ∈ CATEGORY_MAPPINGS, ∀ p ∈ m.1, p.isPrefixOf "zzz".toList = false)
    ∧ getCategoryByFilename "zzz".toList = miscCategory :=
  ⟨by decide, (classification_total "zzz".toList).2 (by decide)⟩

/-! ## Lemmas: text wrapping -/

theorem lastIdxOfChar_spec {a : Char} {l : List Char} {i : Nat}
    (h : lastIdxOfChar a l = some i) :
    i < l.length ∧ l.drop i = a :: l.drop (i + 1) := by
  induction l generalizing i with
  | nil => cases h
  | cons c rest ih =>
    simp only [lastIdxOfChar] at h
    rcases hr : lastIdxOfChar a rest with _ | j
    · rw [hr] at h
      by_cases hc : c = a
      · rw [if_pos hc] at h
        cases h
        subst hc
        simp
      · rw [if_neg hc] at h
        cases h
    · rw [hr] at h
      cases h
      obtain ⟨h1, h2⟩ := ih hr
      exact ⟨by simp only [List.length_cons]; omega, by simpa using h2⟩

theorem lastIdxOfChar_none {a : Char} {l : List Char}
    (h : ∀ c ∈ l, c ≠ a) : lastIdxOfChar a l = none := by
  induction l with
  | nil => rfl
  | cons c rest ih =>
    simp only [lastIdxOfChar]
    rw [ih (fun x hx => h x (List.mem_cons_of_mem c hx))]
    simp [h c (List.mem_cons_self c rest)]

theorem lastIndexOfSpaceLe_spec {l : List Char} {j i : Nat}
    (h : lastIndexOfSpaceLe l j = some i) :
    i ≤ j ∧ i < l.length ∧ l.drop i = ' ' :: l.drop (i + 1) := by
  unfold lastIndexOfSpaceLe at h
  obtain ⟨h1, h2⟩ := lastIdxOfChar_spec h
  simp only [List.length_take] at h1
  have hi : i < l.length := by omega
  have hij : i ≤ j := by omega
  refine ⟨hij, hi, ?_⟩
  rw [List.drop_take] at h2
  have hlen : 1 ≤ j + 1 - i := by omega
  have hd : (l.drop i).take (j + 1 - i) = ' ' :: (l.take (j + 1)).drop (i + 1) := h2
  cases hdi : l.drop i with
  | nil =>
    rw [hdi] at hd
    simp at hd
  | cons x xs =>
    rw [hdi] at hd
    rcases Nat.exists_eq_add_of_le hlen with ⟨m, hm⟩
    rw [hm] at hd
    simp only [Nat.add_comm 1 m, List.take_succ_cons] at hd
    have hx : x = ' ' := ((List.cons.injEq _ _ _ _).mp hd).1
    have hxs : xs = l.drop (i + 1) := by
      have htl := List.tail_drop l i
      rw [hdi] at htl
      simp at htl
      exact htl
    rw [hx, hxs]

theorem findIdxOfStr_isSome_of_occurrence {pat l : List Char} {i : Nat}
    (h : (l.drop i).take pat.length = pat) :
    (findIdxOfStr pat l).isSome = true := by
  induction l generalizing i with
  | nil =>
    simp only [List.drop_nil, List.take_nil] at h
    simp [findIdxOfStr, h.symm]
  | cons c rest ih =>
    cases i with
    | zero =>
      simp only [List.drop_zero] at h
      simp [findIdxOfStr_prefix_occurrence h]
    | succ i' =>
      simp only [List.drop_succ_cons] at h
      have := ih h
      simp only [findIdxOfStr]
      split
      · rfl
      · simpa using this

theorem findIdxOfStr_take_closure {pat l : List Char} {k : Nat}
    (h : findIdxOfStr pat l = none) : findIdxOfStr pat (l.take k) = none := by
  match hf : findIdxOfStr pat (l.take k) with
  | none => rfl
  | some i =>
    obtain ⟨hb, hocc⟩ := findIdxOfStr_some_bound hf
    rw [List.drop_take, List.take_take] at hocc
    have hmin : min pat.length (k - i) = pat.length := by
      have := congrArg List.length hocc
      simp only [List.length_take] at this
      omega
    rw [hmin] at hocc
    have := findIdxOfStr_isSome_of_occurrence hocc
    rw [h] at this
    cases this

theorem findIdxOfStr_drop_closure {pat l : List Char} {k : Nat}
    (h : findIdxOfStr pat l = none) : findIdxOfStr pat (l.drop k) = none := by
  match hf : findIdxOfStr pat (l.drop k) with
  | none => rfl
  | some i =>
    obtain ⟨hb, hocc⟩ := findIdxOfStr_some_bound hf
    rw [List.drop_drop] at hocc
    have := findIdxOfStr_isSome_of_occurrence hocc
    rw [h] at this
    cases this

theorem wrapSegsF_ne_nil (fuel : Nat) (t : List Char) (n : Nat) :
    wrapSegsF fuel t n ≠ [] := by
  cases fuel with
  | zero => simp [wrapSegsF]
  | succ f =>
    simp only [wrapSegsF]
    split
    · simp
    · split <;> simp

theorem intercalateBr_cons {s : List Char} {segs : List (List Char)}
    (h : segs ≠ []) :
    intercalateBr (s :: segs) = s ++ brMark ++ intercalateBr segs := by
  cases segs with
  | nil => exact absurd rfl h
  | cons a rest => rfl

theorem wrapTextF_eq_intercalate (fuel : Nat) (t : List Char) (n : Nat) :
    wrapTextF fuel t n = intercalateBr (wrapSegsF fuel t n) := by
  induction fuel generalizing t with
  | zero => rfl
  | succ f ih =>
    simp only [wrapTextF, wrapSegsF]
    split
    · rfl
    · rcases hsp : lastIndexOfSpaceLe t (n - 1) with _ | i <;> dsimp only <;>
        rw [intercalateBr_cons (wrapSegsF_ne_nil _ _ _), ih]

theorem wrapSegsF_length_le {fuel : Nat} {t : List Char} {n : Nat}
    (hn : 0 < n) (hfuel : t.length ≤ fuel) :
    ∀ s ∈ wrapSegsF fuel t n, s.length ≤ n := by
  induction fuel generalizing t with
  | zero =>
    intro s hs
    have ht : t = [] := List.length_eq_zero.mp (Nat.le_zero.mp hfuel)
    subst ht
    simp only [wrapSegsF, List.mem_singleton] at hs
    subst hs
    simp
  | succ f ih =>
    intro s hs
    simp only [wrapSegsF] at hs
    split at hs
    · rename_i hle
      simp only [List.mem_singleton] at hs
      subst hs
      exact hle
    · rename_i hgt
      push_neg at hgt
      rcases hsp : lastIndexOfSpaceLe t (n - 1) with _ | i <;> rw [hsp] at hs <;>
        simp only [List.mem_cons] at hs
      · rcases hs with rfl | hs
        · simp [List.length_take]
        · exact ih (by simp only [List.length_drop]; omega) s hs
      · obtain ⟨hij, hi, _⟩ := lastIndexOfSpaceLe_spec hsp
        rcases hs with rfl | hs
        · simp only [List.length_take]
          omega
        · exact ih (by simp only [List.length_drop]; omega) s hs

theorem wrapSegsF_rejoins {fuel : Nat} {t : List Char} {n : Nat}
    (hn : 0 < n) (hfuel : t.length ≤ fuel) :
    Rejoins (wrapSegsF fuel t n) t := by
  induction fuel generalizing t with
  | zero => exact Rejoins.single t
  | succ f ih =>
    simp only [wrapSegsF]
    split
    · exact Rejoins.single t
    · rename_i hgt
      push_neg at hgt
      rcases hsp : lastIndexOfSpaceLe t (n - 1) with _ | i <;> dsimp only
      · have hrec := ih (t := t.drop n) (by simp only [List.length_drop]; omega)
        have hh := Rejoins.hard (t.take n) hrec
        rwa [List.take_append_drop] at hh
      · obtain ⟨hij, hi, hdrop⟩ := lastIndexOfSpaceLe_spec hsp
        have hrec := ih (t := t.drop (i + 1))
          (by simp only [List.length_drop]; omega)
        have hsoft := Rejoins.soft (t.take i) hrec
        have ht : t.take i ++ ' ' :: t.drop (i + 1) = t := by
          conv_rhs => rw [← List.take_append_drop i t]
          rw [hdrop]
        rwa [ht] at hsoft

theorem wrapSegsF_eq_chunksF {fuel : Nat} {t : List Char} {n : Nat}
    (hsp : ∀ c ∈ t, c ≠ ' ') :
    wrapSegsF fuel t n = chunksF fuel t n := by
  induction fuel generalizing t with
  | zero => rfl
  | succ f ih =>
    simp only [wrapSegsF, chunksF]
    split
    · rfl
    · have hnone : lastIndexOfSpaceLe t (n - 1) = none := by
        unfold lastIndexOfSpaceLe
        exact lastIdxOfChar_none (fun c hc => hsp c (List.take_subset _ _ hc))
      rw [hnone, ih (fun c hc => hsp c (List.drop_subset _ _ hc))]

theorem wrapSegsF_marker_free {fuel : Nat} {t : List Char} {n : Nat}
    (hbr : findIdxOfStr brMark t = none) :
    ∀ s ∈ wrapSegsF fuel t n, findIdxOfStr brMark s = none := by
  induction fuel generalizing t with
  | zero =>
    intro s hs
    simp only [wrapSegsF, List.mem_singleton] at hs
    subst hs
    exact hbr
  | succ f ih =>
    intro s hs
    simp only [wrapSegsF] at hs
    split at hs
    · simp only [List.mem_singleton] at hs
      subst hs
      exact hbr
    · rcases hsp : lastIndexOfSpaceLe t (n - 1) with _ | i <;> rw [hsp] at hs <;>
        simp only [List.mem_cons] at hs
      · rcases hs with rfl | hs
        · exact findIdxOfStr_take_closure hbr
        · exact ih (findIdxOfStr_drop_closure hbr) s hs
      · rcases hs with rfl | hs
        · exact findIdxOfStr_take_closure hbr
        · exact ih (findIdxOfStr_drop_closure hbr) s hs

theorem splitOnBrF_intercalate {segs : List (List Char)} (hne : segs ≠ [])
    (hfree : ∀ s ∈ segs, findIdxOfStr brMark s = none) :
    ∀ fuel, (intercalateBr segs).length ≤ fuel →
      splitOnBrF fuel (intercalateBr segs) = segs := by
  induction segs with
  | nil => exact absurd rfl hne
  | cons s rest ih =>
    intro fuel hfuel
    cases rest with
    | nil =>
      have hs : findIdxOfStr brMark s = none := hfree s (by simp)
      cases fuel with
      | zero => rfl
      | succ f =>
        show splitOnBrF (f + 1) s = [s]
        simp only [splitOnBrF, hs]
    | cons s2 rest2 =>
      have hbr4 : brMark.length = 4 := by decide
      rw [intercalateBr_cons (by simp)] at hfuel ⊢
      have hfind : findIdxOfStr brMark
          (s ++ brMark ++ intercalateBr (s2 :: rest2)) = some s.length :=
        findIdxOfStr_append_self borderFree_brMark (hfree s (by simp))
      have hlen : (s ++ brMark ++ intercalateBr (s2 :: rest2)).length =
          s.length + 4 + (intercalateBr (s2 :: rest2)).length := by
        simp only [List.length_append, hbr4]
      cases fuel with
      | zero => omega
      | succ f =>
        simp only [splitOnBrF, hfind]
        have htake : (s ++ brMark ++ intercalateBr (s2 :: rest2)).take s.length
            = s := by
          rw [show s ++ brMark ++ intercalateBr (s2 :: rest2) =
            s ++ (brMark ++ intercalateBr (s2 :: rest2)) by simp [List.append_assoc]]
          exact List.take_left _ _
        have hdrop : (s ++ brMark ++ intercalateBr (s2 :: rest2)).drop
            (s.length + brMark.length) = intercalateBr (s2 :: rest2) := by
          rw [show s.length + brMark.length = (s ++ brMark).length from
            (List.length_append _ _).symm]
          exact List.drop_left _ _
        rw [htake, hdrop, ih (by simp) (fun x hx => hfree x (by simp [hx])) f
          (by omega)]

/-- Claim C3 (amended).  For `0 < n` and input text not already containing the
literal break marker: every segment of `wrapText text n` obtained by splitting
on the break marker has length at most `n`; the original text is reconstructed
from the segments by restoring, at each split point, either the single space
the wrap consumed (soft break) or nothing (hard break) — plain removal of the
markers does NOT reconstruct the text, see the counterexample; and on
whitespace-free text the segments are exactly the hard chunks of size `n`
(shorter or equal final chunk). -/
theorem wrapText_segments (t : List Char) (n : Nat) (hn : 0 < n)
    (hbr : findIdxOfStr brMark t = none) :
    (∀ seg ∈ splitOnBr (wrapText t n), seg.length ≤ n)
    ∧ Rejoins (splitOnBr (wrapText t n)) t
    ∧ ((∀ c ∈ t, c ≠ ' ') → splitOnBr (wrapText t n) = chunksOf t n) := by
  have hinter : wrapText t n = intercalateBr (wrapSegsF t.length t n) :=
    wrapTextF_eq_intercalate _ _ _
  have hkey : splitOnBr (wrapText t n) = wrapSegsF t.length t n := by
    unfold splitOnBr
    rw [hinter]
    exact splitOnBrF_intercalate (wrapSegsF_ne_nil _ _ _)
      (wrapSegsF_marker_free hbr) _ le_rfl
  refine ⟨?_, ?_, ?_⟩
  · rw [hkey]
    exact wrapSegsF_length_le hn le_rfl
  · rw [hkey]
    exact wrapSegsF_rejoins hn le_rfl
  · intro hsp
    rw [hkey, wrapSegsF_eq_chunksF hsp]
    rfl

/-- Claim C3 witness: the amended theorem applied to `"ab cd"` at width 3. -/
theorem wrapText_segments_witness :
    (0 : Nat) < 3
    ∧ findIdxOfStr brMark "ab cd".toList = none
    ∧ Rejoins (splitOnBr (wrapText "ab cd".toList 3)) "ab cd".toList :=
  ⟨by decide, by decide,
    (wrapText_segments "ab cd".toList 3 (by decide) (by decide)).2.1⟩

/-- Claim C3 counterexample: removing the break markers (concatenating the
marker-split segments) does not reconstruct the original text — the wrap at a
space boundary consumes the space (`wrapText "ab cd" 3 = "ab<br>cd"`, and
removing the marker yields `"abcd"`). -/
theorem wrapText_marker_removal_cex :
    wrapText "ab cd".toList 3 = "ab<br>cd".toList
    ∧ (splitOnBr (wrapText "ab cd".toList 3)).flatten ≠ "ab cd".toList := by
  decide
